import Mathlib

/-!
Shallow embedding of jwlib/output.py: the output ("projection") stage of a
media-organizing tool.  Pure path computations are modelled as Lean string
functions; filesystem state is modelled explicitly (file contents as
`Option String`, directory trees as abstract query records, the symlink
tree as explicit state).  `Media.exists_in` lives in jwlib/parse.py, which
is not part of the given sources; it is modelled from the spec.
-/

/-- str.startswith('/'). -/
def startsSlash (b : String) : Bool :=
  match b.data with
  | [] => false
  | c :: _ => c == '/'

/-- str.endswith('/'). -/
def endsSlash (a : String) : Bool :=
  match a.data.getLast? with
  | some c => c == '/'
  | none => false

/-- os.path.join for two components (posixpath.join semantics). -/
def pj2 (a b : String) : String :=
  if startsSlash b then b
  else if a = "" || endsSlash a then a ++ b
  else a ++ "/" ++ b

/-- os.path.join for three components. -/
def pj3 (a b c : String) : String := pj2 (pj2 a b) c

/-- Split a path on the path separator (str.split('/')). -/
def splitSlash (p : String) : List String :=
  (p.data.foldr (fun c acc =>
    if c = '/' then [] :: acc
    else
      match acc with
      | h :: t => (c :: h) :: t
      | [] => [[c]]) [[]]).map (fun l => ⟨l⟩)

/-- Join path components with the separator ('/'.join). -/
def joinSlash : List String → String
  | [] => ""
  | [a] => a
  | a :: rest => a ++ "/" ++ joinSlash rest

/-- Path normalization on components, as posixpath.normpath does for
relative paths: drop empty and dot components, resolve a dot-dot against a
preceding ordinary component, keep leading dot-dots. -/
def normParts (l : List String) : List String :=
  l.foldl (fun acc part =>
    if part = "" || part = "." then acc
    else if part = ".." then
      match acc.getLast? with
      | some last => if last = ".." then acc ++ [part] else acc.dropLast
      | none => acc ++ [part]
    else acc ++ [part]) []

/-- Length of the longest common component sequence, as os.path.commonprefix
computes on the split lists inside posixpath.relpath. -/
def commonLen : List String → List String → Nat
  | a :: as, b :: bs => if a = b then commonLen as bs + 1 else 0
  | _, _ => 0

/-- os.path.relpath(path, start) for relative inputs.  Python routes both
arguments through abspath; for inputs that do not escape the current
directory the current-directory components cancel in the common prefix, so
the computation below on the raw components agrees with posixpath. -/
def relpath (path start : String) : String :=
  let pl := normParts (splitSlash path)
  let sl := normParts (splitSlash start)
  let i := commonLen sl pl
  let rel := List.replicate (sl.length - i) ".." ++ pl.drop i
  if rel = [] then "." else joinSlash rel

/-- Index of the last occurrence of a character, -1 when absent
(Python str.rfind). -/
def lastIdxOf (l : List Char) (c : Char) : Int :=
  match l.reverse.findIdx? (fun x => x = c) with
  | some i => (l.length : Int) - 1 - (i : Int)
  | none => -1

/-- os.path.splitext on the character list (genericpath, posix separator):
split at the last dot when it lies after the last slash and the name part
has a non-dot character before it; leading dots of the basename never
start an extension. -/
def splitext_data (l : List Char) : List Char × List Char :=
  let sep := lastIdxOf l '/'
  let dot := lastIdxOf l '.'
  if sep < dot then
    let start := (sep + 1).toNat
    let stop := dot.toNat
    if (List.range (stop - start)).any (fun k => l.getD (start + k) '.' != '.') then
      (l.take stop, l.drop stop)
    else (l, [])
  else (l, [])

/-- os.path.splitext on strings. -/
def splitext (p : String) : String × String :=
  let r := splitext_data p.data
  (⟨r.1⟩, ⟨r.2⟩)

/-- Media leaf of the category tree (class Media in jwlib/parse.py): display
name, expected local relative filename, remote URL. -/
structure Media where
  name : String
  filename : String
  url : String
deriving DecidableEq, Repr

/-- Category node (class Category in jwlib/parse.py): key, display name,
home flag, and ordered contents, each child a sub-Category or a Media. -/
inductive Category : Type where
  | mk : (key : String) → (name : String) → (home : Bool) →
      (contents : List (Category ⊕ Media)) → Category

def Category.key : Category → String
  | .mk k _ _ _ => k

def Category.name : Category → String
  | .mk _ n _ _ => n

def Category.home : Category → Bool
  | .mk _ _ h _ => h

def Category.contents : Category → List (Category ⊕ Media)
  | .mk _ _ _ c => c

/-- The Media children of a category, in order. -/
def mediaChildren (c : Category) : List Media :=
  c.contents.filterMap (fun it =>
    match it with
    | Sum.inl _ => none
    | Sum.inr m => some m)

/-- The category with its sub-category children removed (only Media kept). -/
def mediaOnly : Category → Category
  | .mk k n h contents =>
      .mk k n h (contents.filter (fun it =>
        match it with
        | Sum.inl _ => false
        | Sum.inr _ => true))

/-- The Settings record (jwlib/arguments.py), restricted to the fields the
output stage reads. -/
structure Settings where
  work_dir : String
  sub_dir : String
  safe_filenames : Bool
  include_keyname : Bool
  clean_all_symlinks : Bool
  quiet : Nat
deriving Repr

/-- Abstract local-file environment: which paths exist as files.  The
output stage only queries it, never updates it. -/
structure Env where
  fileExists : String → Bool

/-- Modelled from the spec: `Media.exists_in(base_dir)` (class Media in
jwlib/parse.py, not among the given sources) reports whether the file
corresponding to this item is already present under the given base
directory, at the item's expected relative location. -/
def Media.exists_in (m : Media) (base : String) (env : Env) : Bool :=
  env.fileExists (pj2 base m.filename)

/-- ASCII apostrophe (Python "'"). -/
def aposChar : Char := Char.ofNat 39

/-- Characters of the Python string '<>:"|?*/\0' (NTFS/FAT forbidden set). -/
def forbiddenSafeChars : List Char :=
  ['<', '>', ':', '"', '|', '?', '*', '/', Char.ofNat 0]

/-- Characters of the Python string '/\0' (Unix forbidden set). -/
def forbiddenUnixChars : List Char := ['/', Char.ofNat 0]

/-- format_filename from jwlib/output.py: remove unsafe characters from
file names.  In safe mode first replace every double quote with an
apostrophe and every colon with a dot (str.replace on one-character
patterns is a character map), then keep only characters outside the
forbidden set; in Unix mode just filter.  The join-over-generator is the
list filter. -/
def format_filename (string : String) (safe : Bool) : String :=
  if safe then
    ⟨(((string.data.map (fun c => if c = '"' then aposChar else c)).map
        (fun c => if c = ':' then '.' else c)).filter
        (fun c => !(forbiddenSafeChars.contains c)))⟩
  else
    ⟨string.data.filter (fun c => !(forbiddenUnixChars.contains c))⟩

/-- Stated from the claim's words, for comparison with format_filename:
every colon replaced by a dot and every double quote by an apostrophe,
then the remaining forbidden characters removed. -/
def claimSafeSanitize (string : String) : String :=
  ⟨((string.data.map (fun c =>
      if c = '"' then aposChar else if c = ':' then '.' else c)).filter
      (fun c => !(forbiddenSafeChars.contains c)))⟩

/-- output_stdout from jwlib/output.py with the default uniq=False (the
uniq branch funnels the list through an unordered set and is not modelled):
for each Media child of each category, emit the filename relative to the
working directory when the item exists in '.', else the URL. -/
def output_stdout (s : Settings) (env : Env) (data : List Category) : List String :=
  data.flatMap (fun category =>
    category.contents.filterMap (fun item =>
      match item with
      | Sum.inl _ => none
      | Sum.inr m =>
          some (if m.exists_in "." env then relpath m.filename s.work_dir
                else m.url)))

/-- One call of output_m3u's writer: writer(source, name, output_file,
overwrite=is_start). -/
structure M3uEntry where
  name : String
  source : String
  file : String
  overwrite : Bool
deriving DecidableEq, Repr

/-- Thread the is_start flag of output_m3u over the (name, source) pairs of
one category: the flag is True for the first write and False afterwards. -/
def attachWrites (file : String) : List (String × String) → Bool → List M3uEntry
  | [], _ => []
  | e :: rest, first => ⟨e.1, e.2, file, first⟩ :: attachWrites file rest false

/-- The (name, source) pair output_m3u computes for one content item of a
category; none when the item is skipped (a sub-category in flat mode). -/
def m3uItemEntry (s : Settings) (env : Env) (flat : Bool) (file_ending : String)
    (source_prepend_dir : String) (item : Category ⊕ Media) : Option (String × String) :=
  match item with
  | Sum.inl sub =>
      if flat then none
      else some (sub.name.toUpper, pj3 "." source_prepend_dir (sub.key ++ file_ending))
  | Sum.inr m =>
      if m.exists_in (pj2 s.work_dir s.sub_dir) env then
        some (m.name, pj3 "." source_prepend_dir m.filename)
      else
        some (m.name, m.url)

/-- The body of output_m3u's loop for one category: choose the output file
and the source prefix (flat / home / plain case), then write one entry per
non-skipped content item, the first with overwrite=True. -/
def output_m3u_cat (s : Settings) (env : Env) (flat : Bool) (file_ending : String)
    (category : Category) : List M3uEntry :=
  let wd := s.work_dir
  let sd := s.sub_dir
  let fmt := fun x => format_filename x s.safe_filenames
  let output_file :=
    if flat then pj2 wd (category.key ++ " - " ++ fmt category.name ++ file_ending)
    else if category.home then pj2 wd (fmt category.name ++ file_ending)
    else pj3 wd sd (category.key ++ file_ending)
  let source_prepend_dir :=
    if flat then sd else if category.home then sd else ""
  attachWrites output_file
    (category.contents.filterMap (m3uItemEntry s env flat file_ending source_prepend_dir))
    true

/-- output_m3u from jwlib/output.py as the list of writer calls it makes,
in order (the msg logging side channel is not modelled).  m3u mode is
flat=false file_ending=".m3u"; m3ucompat is flat=true; html passes
file_ending=".html" with the same traversal. -/
def output_m3u (s : Settings) (env : Env) (flat : Bool) (file_ending : String)
    (data : List Category) : List M3uEntry :=
  data.flatMap (output_m3u_cat s env flat file_ending)

/-- _truncate_file from jwlib/output.py, on the target file's content
(none = the file does not exist; makedirs on the parent is outside this
content model).  Keep a non-empty existing file unless overwrite is set,
otherwise write the given string. -/
def truncate_file (content : Option String) (string : String) (overwrite : Bool) : String :=
  match content with
  | some c => if !overwrite && c.length != 0 then c else string
  | none => string

/-- The two lines _write_to_m3u appends for one entry. -/
def m3u_entry_str (source name : String) : String :=
  "#EXTINF:0," ++ name ++ "\n" ++ source ++ "\n"

/-- _write_to_m3u from jwlib/output.py on the target file's content:
truncate (header '#EXTM3U') then append the entry pair of lines. -/
def write_to_m3u (source name : String) (content : Option String) (overwrite : Bool) : String :=
  truncate_file content "#EXTM3U\n" overwrite ++ m3u_entry_str source name

/-- A run's sequence of writes to one target file, as output_m3u performs
them: the first write has overwrite=True, all later writes overwrite=False.
Entries are (source, name) pairs in write order. -/
def m3u_write_all (init : Option String) : List (String × String) → Option String
  | [] => init
  | e :: rest =>
      rest.foldl (fun c e2 => some (write_to_m3u e2.1 e2.2 c false))
        (some (write_to_m3u e.1 e.2 init true))

/-- Abstract snapshot of the directory tree clean_symlinks scans: directory
test, listing, symlink test, link target, and existence test (os.path.isdir,
os.listdir, os.path.islink, os.readlink, os.path.exists). -/
structure CleanFS where
  isDir : String → Bool
  listDir : String → List String
  isLink : String → Bool
  readlink : String → String
  pathExists : String → Bool

/-- clean_symlinks from jwlib/output.py as the ordered list of paths it
passes to os.remove: return early when workdir/subdir is not a directory;
otherwise, in each direct child directory, remove every symlink whose
target (read relative to its containing directory) does not exist, or every
symlink when clean_all_symlinks is set. -/
def clean_symlinks (s : Settings) (fs : CleanFS) : List String :=
  let path := pj2 s.work_dir s.sub_dir
  if !fs.isDir path then []
  else
    (fs.listDir path).flatMap (fun sub =>
      let subdir := pj2 path sub
      if !fs.isDir subdir then []
      else
        (fs.listDir subdir).flatMap (fun f =>
          let file := pj2 subdir f
          if !fs.isLink file then []
          else
            let source := pj2 subdir (fs.readlink file)
            if s.clean_all_symlinks || !fs.pathExists source then [file] else []))

/-- State of the tree output_filesystem builds: the set of directories
created and the symlinks present, each link a (path, target) pair. -/
structure FsState where
  dirs : List String
  links : List (String × String)
deriving DecidableEq, Repr

/-- Insert a path at the back unless already present. -/
def insertNew (x : String) (l : List String) : List String :=
  if x ∈ l then l else l ++ [x]

/-- The path together with all its slash-delimited ancestor prefixes, in
creation order (the intermediate directories os.makedirs creates). -/
def ancestors (p : String) : List String :=
  (List.range (splitSlash p).length).map
    (fun i => joinSlash ((splitSlash p).take (i + 1)))

/-- os.makedirs(p, exist_ok=True) on the state: create the path and its
missing ancestors; a pre-existing directory is tolerated. -/
def mkdirs (st : FsState) (p : String) : FsState :=
  { st with dirs := (ancestors p).foldl (fun d q => insertNew q d) st.dirs }

/-- The paths at which some filesystem entry exists in the state (used for
the FileExistsError test of os.symlink). -/
def FsState.paths (st : FsState) : List String :=
  st.dirs ++ st.links.map Prod.fst

/-- os.symlink(source, link) wrapped in try/except FileExistsError: when
any entry already exists at the link path the state is left untouched
(first writer wins), otherwise the link is recorded. -/
def symlink_try (st : FsState) (source link : String) : FsState :=
  if link ∈ st.paths then st
  else { st with links := st.links ++ [(link, source)] }

/-- The body of output_filesystem's inner loop for one content item of a
category (output_dir is workdir/subdir/key of the enclosing category). -/
def fs_item_step (s : Settings) (env : Env) (output_dir : String)
    (st : FsState) (item : Category ⊕ Media) : FsState :=
  match item with
  | Sum.inl sub =>
      let st := mkdirs st (pj3 s.work_dir s.sub_dir sub.key)
      let source := pj2 ".." sub.key
      let link :=
        if s.include_keyname then
          pj2 output_dir (sub.key ++ " - " ++ format_filename sub.name s.safe_filenames)
        else
          pj2 output_dir (format_filename sub.name s.safe_filenames)
      symlink_try st source link
  | Sum.inr m =>
      if !(m.exists_in (pj2 s.work_dir s.sub_dir) env) then st
      else
        let source := pj2 ".." m.filename
        let ext := (splitext m.filename).2
        let link := pj2 output_dir (format_filename (m.name ++ ext) s.safe_filenames)
        symlink_try st source link

/-- The body of output_filesystem's loop for one category: create the
category directory, for a home category link to it from the working
directory root, then handle each content item. -/
def fs_cat_step (s : Settings) (env : Env) (st : FsState) (category : Category) : FsState :=
  let output_dir := pj3 s.work_dir s.sub_dir category.key
  let st := mkdirs st output_dir
  let st :=
    if category.home then
      symlink_try st (pj2 s.sub_dir category.key)
        (pj2 s.work_dir (format_filename category.name s.safe_filenames))
    else st
  category.contents.foldl (fs_item_step s env output_dir) st

/-- output_filesystem from jwlib/output.py on the explicit tree state (the
msg logging side channel is not modelled). -/
def output_filesystem (s : Settings) (env : Env) (data : List Category)
    (st : FsState) : FsState :=
  data.foldl (fs_cat_step s env) st

/-- The primitive filesystem operations output_filesystem attempts. -/
inductive FsOp : Type where
  | mkdir (p : String)
  | mklink (source link : String)
deriving DecidableEq, Repr

/-- Apply one operation to the state. -/
def applyOp (st : FsState) : FsOp → FsState
  | .mkdir p => mkdirs st p
  | .mklink source link => symlink_try st source link

/-- Apply a list of operations in order. -/
def applyOps (st : FsState) (ops : List FsOp) : FsState :=
  ops.foldl applyOp st

/-- The operation trace of output_filesystem on one content item. -/
def fs_item_ops (s : Settings) (env : Env) (output_dir : String)
    (item : Category ⊕ Media) : List FsOp :=
  match item with
  | Sum.inl sub =>
      [.mkdir (pj3 s.work_dir s.sub_dir sub.key),
       .mklink (pj2 ".." sub.key)
         (if s.include_keyname then
            pj2 output_dir (sub.key ++ " - " ++ format_filename sub.name s.safe_filenames)
          else
            pj2 output_dir (format_filename sub.name s.safe_filenames))]
  | Sum.inr m =>
      if !(m.exists_in (pj2 s.work_dir s.sub_dir) env) then []
      else
        [.mklink (pj2 ".." m.filename)
           (pj2 output_dir (format_filename (m.name ++ (splitext m.filename).2) s.safe_filenames))]

/-- The operation trace of output_filesystem on one category. -/
def fs_cat_ops (s : Settings) (env : Env) (category : Category) : List FsOp :=
  let output_dir := pj3 s.work_dir s.sub_dir category.key
  [FsOp.mkdir output_dir] ++
    (if category.home then
       [FsOp.mklink (pj2 s.sub_dir category.key)
          (pj2 s.work_dir (format_filename category.name s.safe_filenames))]
     else []) ++
    category.contents.flatMap (fs_item_ops s env output_dir)

/-- The full operation trace of output_filesystem; it does not depend on
the state, because the emitter never reads the tree it is building. -/
def fs_ops (s : Settings) (env : Env) (data : List Category) : List FsOp :=
  data.flatMap (fs_cat_ops s env)

/-- Concatenation of strings, head first. -/
def strConcat (l : List String) : String := l.foldr (· ++ ·) ""

/-- Sample settings for concrete witnesses. -/
def exSettings : Settings := ⟨"/out", "vids", false, false, false, 0⟩

/-- Sample media item for concrete witnesses. -/
def exMedia : Media := ⟨"Video A", "a.mp4", "http://x/a.mp4"⟩

/-- Sample category for concrete witnesses. -/
def exCat : Category := .mk "c1" "Category One" true [Sum.inr exMedia]

/-- Environment in which no local file exists. -/
def envNone : Env := ⟨fun _ => false⟩

/-- Environment in which every local file exists. -/
def envAll : Env := ⟨fun _ => true⟩

/-- Settings whose working directory is a sibling of the current one. -/
def exSettingsWd : Settings := ⟨"wd", "vids", false, false, false, 0⟩

/-- Environment in which exactly the file wd/a.mp4 exists. -/
def envWd : Env := ⟨fun p => p == "wd/a.mp4"⟩

/-- State inclusion: the second state has every directory and every link
path of the first. -/
def FsLe (a b : FsState) : Prop :=
  a.dirs ⊆ b.dirs ∧ a.links.map Prod.fst ⊆ b.links.map Prod.fst

/-- An operation is already satisfied by the state: a mkdir when the
directory and its ancestors exist, a mklink when some entry already
occupies the link path.  Applying a satisfied operation is a no-op. -/
def opDone (st : FsState) : FsOp → Prop
  | .mkdir p => ∀ q ∈ ancestors p, q ∈ st.dirs
  | .mklink _ link => link ∈ st.paths

lemma nonempty_length {s : String} (h : s ≠ "") : s.length ≠ 0 := by
  intro hl
  apply h
  cases s with
  | mk data =>
    simp [String.length] at hl
    simp [hl]

lemma map_id_of_mem {l : List Char} {f : Char → Char} (h : ∀ x ∈ l, f x = x) :
    l.map f = l := by
  induction l with
  | nil => rfl
  | cons a as ih =>
    simp only [List.map_cons, h a (List.mem_cons_self a as)]
    rw [ih (fun x hx => h x (List.mem_cons_of_mem a hx))]

lemma format_filename_false_data (s : String) :
    (format_filename s false).data =
      s.data.filter (fun c => !(forbiddenUnixChars.contains c)) := rfl

lemma format_filename_true_data (s : String) :
    (format_filename s true).data =
      (((s.data.map (fun c => if c = '"' then aposChar else c)).map
        (fun c => if c = ':' then '.' else c)).filter
        (fun c => !(forbiddenSafeChars.contains c))) := rfl

lemma mem_format_filename_false {s : String} {c : Char}
    (h : c ∈ (format_filename s false).data) : c ∉ forbiddenUnixChars := by
  rw [format_filename_false_data] at h
  have := List.of_mem_filter h
  simpa using this

lemma mem_format_filename_true {s : String} {c : Char}
    (h : c ∈ (format_filename s true).data) : c ∉ forbiddenSafeChars := by
  rw [format_filename_true_data] at h
  have := List.of_mem_filter h
  simpa using this

/-- C3: format_filename with safe=False returns a string with no slash and
no NUL; with safe=True it returns a string with none of the NTFS/FAT
forbidden characters, and it equals the claim's two-phase description:
every colon replaced by a dot and every double quote by an apostrophe
before the remaining forbidden characters are removed.  Being a Lean
function, it is total and deterministic. -/
theorem format_filename_forbidden_free (s : String) :
    ((format_filename s false).data.all
      (fun c => !(forbiddenUnixChars.contains c)) = true) ∧
    ((format_filename s true).data.all
      (fun c => !(forbiddenSafeChars.contains c)) = true) ∧
    format_filename s true = claimSafeSanitize s := by
  refine ⟨?_, ?_, ?_⟩
  · rw [List.all_eq_true]
    intro x hx
    have := mem_format_filename_false hx
    simpa using this
  · rw [List.all_eq_true]
    intro x hx
    have := mem_format_filename_true hx
    simpa using this
  · have hmap : ((s.data.map (fun c => if c = '"' then aposChar else c)).map
        (fun c => if c = ':' then '.' else c)) =
        s.data.map (fun c => if c = '"' then aposChar else if c = ':' then '.' else c) := by
      rw [List.map_map]
      apply List.map_congr_left
      intro a _
      by_cases h1 : a = '"'
      · have hq : aposChar ≠ ':' := by decide
        simp [Function.comp, h1, hq]
      · by_cases h2 : a = ':'
        · simp [Function.comp, h1, h2]
        · simp [Function.comp, h1, h2]
    apply String.ext
    rw [format_filename_true_data, hmap]
    rfl

/-- C10: format_filename is idempotent in both Unix and safe mode:
sanitizing an already-sanitized name leaves it unchanged. -/
theorem format_filename_idempotent (s : String) (safe : Bool) :
    format_filename (format_filename s safe) safe = format_filename s safe := by
  cases safe
  · apply String.ext
    rw [format_filename_false_data (format_filename s false)]
    apply List.filter_eq_self.mpr
    intro a ha
    rw [format_filename_false_data] at ha
    exact (List.mem_filter.mp ha).2
  · have h1 : ∀ x ∈ (format_filename s true).data,
        (if x = '"' then aposChar else x) = x := by
      intro x hx
      have hm := mem_format_filename_true hx
      have hne : x ≠ '"' := by
        intro he
        exact hm (by rw [he]; decide)
      rw [if_neg hne]
    have h2 : ∀ x ∈ (format_filename s true).data,
        (if x = ':' then '.' else x) = x := by
      intro x hx
      have hm := mem_format_filename_true hx
      have hne : x ≠ ':' := by
        intro he
        exact hm (by rw [he]; decide)
      rw [if_neg hne]
    have h3 : ∀ x ∈ (format_filename s true).data,
        (!(forbiddenSafeChars.contains x)) = true := by
      intro x hx
      have hm := mem_format_filename_true hx
      simpa using hm
    apply String.ext
    rw [format_filename_true_data (format_filename s true)]
    rw [map_id_of_mem h1, map_id_of_mem h2]
    exact List.filter_eq_self.mpr h3

lemma write_to_m3u_head (init : Option String) (src nm : String) :
    write_to_m3u src nm init true = "#EXTM3U\n" ++ m3u_entry_str src nm := by
  cases init <;> simp [write_to_m3u, truncate_file]

lemma write_to_m3u_append {c : String} (h : c.length ≠ 0) (src nm : String) :
    write_to_m3u src nm (some c) false = c ++ m3u_entry_str src nm := by
  simp [write_to_m3u, truncate_file, h]

lemma append_length_ne_zero {a : String} (b : String) (h : a.length ≠ 0) :
    (a ++ b).length ≠ 0 := by
  rw [String.length_append]
  omega

lemma fold_writes (es : List (String × String)) :
    ∀ c : String, c.length ≠ 0 →
      es.foldl (fun acc e2 => some (write_to_m3u e2.1 e2.2 acc false)) (some c) =
      some (c ++ strConcat (es.map (fun x => m3u_entry_str x.1 x.2))) := by
  induction es with
  | nil =>
    intro c _
    simp [strConcat]
  | cons x xs ih =>
    intro c h
    simp only [List.foldl_cons, List.map_cons]
    rw [write_to_m3u_append h]
    rw [ih (c ++ m3u_entry_str x.1 x.2) (append_length_ne_zero _ h)]
    have : strConcat (m3u_entry_str x.1 x.2 :: xs.map (fun x => m3u_entry_str x.1 x.2)) =
        m3u_entry_str x.1 x.2 ++ strConcat (xs.map (fun x => m3u_entry_str x.1 x.2)) := rfl
    rw [this, String.append_assoc]

/-- C6: a run's writes to one target file — first with overwrite=True, the
rest with overwrite=False — leave exactly the '#EXTM3U' header line
followed by the '#EXTINF:0,'+name / source line pairs in write order; any
pre-existing content is discarded by the first write. -/
theorem m3u_run_file_content (init : Option String) (e : String × String)
    (es : List (String × String)) :
    m3u_write_all init (e :: es) =
      some ("#EXTM3U\n" ++ strConcat ((e :: es).map (fun x => m3u_entry_str x.1 x.2))) := by
  simp only [m3u_write_all, List.map_cons]
  rw [write_to_m3u_head]
  have hne : ("#EXTM3U\n" ++ m3u_entry_str e.1 e.2).length ≠ 0 :=
    append_length_ne_zero _ (by decide)
  rw [fold_writes es _ hne]
  have : strConcat (m3u_entry_str e.1 e.2 :: es.map (fun x => m3u_entry_str x.1 x.2)) =
      m3u_entry_str e.1 e.2 ++ strConcat (es.map (fun x => m3u_entry_str x.1 x.2)) := rfl
  rw [this, String.append_assoc]

/-- C7: a write with overwrite=False to an existing non-empty file never
truncates or modifies the old content: the result is exactly the old
content with the new entry appended after it. -/
theorem m3u_append_preserves_content (src nm c : String) (h : c ≠ "") :
    write_to_m3u src nm (some c) false = c ++ m3u_entry_str src nm :=
  write_to_m3u_append (nonempty_length h) src nm

/-- Witness for C7 at a concrete non-empty file content. -/
theorem m3u_append_preserves_content_witness :
    write_to_m3u "./vids/a.mp4" "Video A" (some "#EXTM3U\n") false =
      "#EXTM3U\n" ++ m3u_entry_str "./vids/a.mp4" "Video A" :=
  m3u_append_preserves_content "./vids/a.mp4" "Video A" "#EXTM3U\n" (by decide)

lemma attachWrites_map_pairs (f : String) (l : List (String × String)) (b : Bool) :
    (attachWrites f l b).map (fun e => (e.name, e.source)) = l := by
  induction l generalizing b with
  | nil => rfl
  | cons x xs ih => simp [attachWrites, ih]

lemma attachWrites_file {f : String} {l : List (String × String)} {b : Bool}
    {e : M3uEntry} (h : e ∈ attachWrites f l b) : e.file = f := by
  induction l generalizing b with
  | nil => simp [attachWrites] at h
  | cons x xs ih =>
    simp only [attachWrites, List.mem_cons] at h
    rcases h with h | h
    · rw [h]
    · exact ih h

lemma flat_entries_eq (s : Settings) (env : Env) (fe : String)
    (l : List (Category ⊕ Media)) :
    l.filterMap (m3uItemEntry s env true fe s.sub_dir) =
    (l.filterMap (fun it =>
      match it with
      | Sum.inl _ => none
      | Sum.inr m => some m)).map
      (fun m => (m.name, if m.exists_in (pj2 s.work_dir s.sub_dir) env
        then pj3 "." s.sub_dir m.filename else m.url)) := by
  induction l with
  | nil => rfl
  | cons x xs ih =>
    cases x with
    | inl c =>
      simpa [m3uItemEntry, List.filterMap_cons] using ih
    | inr m =>
      by_cases hc : m.exists_in (pj2 s.work_dir s.sub_dir) env
      · simp [m3uItemEntry, List.filterMap_cons, hc, ih]
      · simp [m3uItemEntry, List.filterMap_cons, hc, ih]

lemma output_m3u_cat_flat (s : Settings) (env : Env) (fe : String) (c : Category) :
    output_m3u_cat s env true fe c =
    attachWrites
      (pj2 s.work_dir (c.key ++ " - " ++ format_filename c.name s.safe_filenames ++ fe))
      (c.contents.filterMap (m3uItemEntry s env true fe s.sub_dir)) true := rfl

/-- C1 counterexample: in flat mode, for a media item that does not exist
locally (spec section 8's own example input), the source written is the
remote URL, not the subdirectory-prefixed relative path claimed. -/
theorem flat_source_counterexample :
    (output_m3u_cat exSettings envNone true ".m3u" exCat).map M3uEntry.source =
      ["http://x/a.mp4"] ∧
    pj3 "." exSettings.sub_dir exMedia.filename ≠ "http://x/a.mp4" := by
  exact ⟨by decide, by decide⟩

/-- C1 amended: in flat M3U / m3ucompat mode the source for a media item is
the subdirectory-prefixed relative path when the item exists under
workdir/subdir, and the remote URL otherwise — the same existence-aware
fallback as in non-flat mode. -/
theorem flat_source_selection (s : Settings) (env : Env) (fe : String) (c : Category) :
    (output_m3u_cat s env true fe c).map (fun e => (e.name, e.source)) =
    (mediaChildren c).map (fun m =>
      (m.name, if m.exists_in (pj2 s.work_dir s.sub_dir) env
        then pj3 "." s.sub_dir m.filename else m.url)) := by
  rw [output_m3u_cat_flat, attachWrites_map_pairs, flat_entries_eq]
  simp only [mediaChildren]

lemma stdout_entries_eq (s : Settings) (env : Env) (l : List (Category ⊕ Media)) :
    l.filterMap (fun item =>
      match item with
      | Sum.inl _ => none
      | Sum.inr m =>
          some (if m.exists_in "." env then relpath m.filename s.work_dir
                else m.url)) =
    (l.filterMap (fun it =>
      match it with
      | Sum.inl _ => none
      | Sum.inr m => some m)).map
      (fun m => if m.exists_in "." env then relpath m.filename s.work_dir else m.url) := by
  induction l with
  | nil => rfl
  | cons x xs ih =>
    cases x with
    | inl c => simpa [List.filterMap_cons] using ih
    | inr m => simp [List.filterMap_cons, ih]

/-- C2 counterexample: with working directory "wd" and the file present
under wd but not under the current directory, stdout mode prints the URL,
although the item exists under the working directory and the claim then
demands the relative path; the existence check is taken in '.', not in the
working directory. -/
theorem stdout_existence_base_counterexample :
    output_stdout exSettingsWd envWd [exCat] = ["http://x/a.mp4"] ∧
    exMedia.exists_in exSettingsWd.work_dir envWd = true ∧
    relpath exMedia.filename exSettingsWd.work_dir ≠ "http://x/a.mp4" := by
  exact ⟨by decide, by decide, by decide⟩

/-- C2 amended: in stdout mode each direct media child of a top-level
category yields one line: the item's filename made relative to the
configured working directory when the item exists under the current
directory '.', and the item's remote URL otherwise — the existence check
is resolved against '.', not against the working directory. -/
theorem stdout_lines (s : Settings) (env : Env) (data : List Category) :
    output_stdout s env data =
    data.flatMap (fun c => (mediaChildren c).map (fun m =>
      if m.exists_in "." env then relpath m.filename s.work_dir else m.url)) := by
  unfold output_stdout
  apply congrArg
  funext c
  rw [mediaChildren, stdout_entries_eq]

/-- C4: the playlist file for a top-level category is placed in the
working directory and named key - sanitizedname + extension in flat mode;
in the working directory and named sanitizedname + extension for a home
category in non-flat mode; and inside the subdirectory named key +
extension for a non-home category in non-flat mode. -/
theorem playlist_file_placement (s : Settings) (env : Env) (flat : Bool)
    (fe : String) (c : Category) (e : M3uEntry)
    (he : e ∈ output_m3u_cat s env flat fe c) :
    e.file =
      (if flat then
        pj2 s.work_dir (c.key ++ " - " ++ format_filename c.name s.safe_filenames ++ fe)
      else if c.home then
        pj2 s.work_dir (format_filename c.name s.safe_filenames ++ fe)
      else pj3 s.work_dir s.sub_dir (c.key ++ fe)) := by
  simp only [output_m3u_cat] at he
  exact attachWrites_file he

/-- Witness for C4 at a concrete flat-mode category. -/
theorem playlist_file_placement_witness :
    (⟨"Video A", "./vids/a.mp4", "/out/c1 - Category One.m3u", true⟩ : M3uEntry).file =
      (if true then
        pj2 exSettings.work_dir
          (exCat.key ++ " - " ++ format_filename exCat.name exSettings.safe_filenames ++ ".m3u")
      else if exCat.home then
        pj2 exSettings.work_dir (format_filename exCat.name exSettings.safe_filenames ++ ".m3u")
      else pj3 exSettings.work_dir exSettings.sub_dir (exCat.key ++ ".m3u")) :=
  playlist_file_placement exSettings envAll true ".m3u" exCat
    ⟨"Video A", "./vids/a.mp4", "/out/c1 - Category One.m3u", true⟩ (by decide)

lemma filterMap_flat_filter (s : Settings) (env : Env) (fe spd : String)
    (l : List (Category ⊕ Media)) :
    (l.filter (fun it =>
      match it with
      | Sum.inl _ => false
      | Sum.inr _ => true)).filterMap (m3uItemEntry s env true fe spd) =
    l.filterMap (m3uItemEntry s env true fe spd) := by
  induction l with
  | nil => rfl
  | cons x xs ih =>
    cases x with
    | inl cc => simpa [m3uItemEntry, List.filter_cons, List.filterMap_cons] using ih
    | inr m =>
      cases hfm : m3uItemEntry s env true fe spd (Sum.inr m) with
      | none => simp [List.filter_cons, List.filterMap_cons, hfm, ih]
      | some e => simp [List.filter_cons, List.filterMap_cons, hfm, ih]

/-- C5: in flat mode the playlist generated for a category is exactly the
playlist generated for the category with all its sub-category children
removed: sub-categories contribute no entry at all. -/
theorem flat_skips_subcategories (s : Settings) (env : Env) (fe : String)
    (c : Category) :
    output_m3u_cat s env true fe c = output_m3u_cat s env true fe (mediaOnly c) := by
  cases c with
  | mk k n h l =>
    rw [output_m3u_cat_flat, output_m3u_cat_flat]
    simp only [mediaOnly, Category.key, Category.name, Category.home, Category.contents]
    rw [filterMap_flat_filter]

lemma mem_guard_flatMap {α β : Type} (l : List α) (p : α → Bool) (g : α → List β)
    (b : β) :
    (b ∈ l.flatMap (fun a => if !(p a) then [] else g a)) ↔
      ∃ a ∈ l, p a = true ∧ b ∈ g a := by
  simp only [List.mem_flatMap]
  constructor
  · rintro ⟨a, ha, hb⟩
    by_cases h : p a
    · exact ⟨a, ha, h, by simpa [h] using hb⟩
    · simp [h] at hb
  · rintro ⟨a, ha, h, hb⟩
    exact ⟨a, ha, by simpa [h] using hb⟩

lemma mem_ite_singleton {α : Type} (b x : α) (c : Bool) :
    (b ∈ if c then [x] else ([] : List α)) ↔ c = true ∧ b = x := by
  cases c <;> simp

/-- C8: clean_symlinks removes exactly the symlinks directly inside a
direct child directory of workdir/subdir whose target, resolved relative
to the link's containing directory, does not exist — or all such symlinks
when clean_all_symlinks is set; every removed path is a symlink, and when
workdir/subdir is not a directory nothing is removed. -/
theorem clean_symlinks_removes_exactly (s : Settings) (fs : CleanFS) (f : String) :
    f ∈ clean_symlinks s fs ↔
      (fs.isDir (pj2 s.work_dir s.sub_dir) = true ∧
       ∃ d ∈ fs.listDir (pj2 s.work_dir s.sub_dir),
         fs.isDir (pj2 (pj2 s.work_dir s.sub_dir) d) = true ∧
         ∃ n ∈ fs.listDir (pj2 (pj2 s.work_dir s.sub_dir) d),
           f = pj2 (pj2 (pj2 s.work_dir s.sub_dir) d) n ∧
           fs.isLink f = true ∧
           (s.clean_all_symlinks = true ∨
            fs.pathExists
              (pj2 (pj2 (pj2 s.work_dir s.sub_dir) d) (fs.readlink f)) = false)) := by
  simp only [clean_symlinks]
  by_cases hd : fs.isDir (pj2 s.work_dir s.sub_dir)
  · rw [if_neg (by simp [hd])]
    rw [mem_guard_flatMap]
    constructor
    · rintro ⟨d, hdl, hdd, hf⟩
      rw [mem_guard_flatMap] at hf
      obtain ⟨n, hnl, hlink, hfin⟩ := hf
      rw [mem_ite_singleton] at hfin
      obtain ⟨hcond, hfeq⟩ := hfin
      subst hfeq
      refine ⟨hd, d, hdl, hdd, n, hnl, rfl, hlink, ?_⟩
      rcases Bool.or_eq_true_iff.mp hcond with h | h
      · exact Or.inl h
      · exact Or.inr (by simpa using h)
    · rintro ⟨_, d, hdl, hdd, n, hnl, hfeq, hlink, hcond⟩
      subst hfeq
      refine ⟨d, hdl, hdd, ?_⟩
      rw [mem_guard_flatMap]
      refine ⟨n, hnl, hlink, ?_⟩
      rw [mem_ite_singleton]
      refine ⟨?_, rfl⟩
      rcases hcond with h | h
      · exact Bool.or_eq_true_iff.mpr (Or.inl h)
      · exact Bool.or_eq_true_iff.mpr (Or.inr (by simp [h]))
  · rw [if_pos (by simp [hd])]
    simp [hd]

lemma insertNew_subset (x : String) (l : List String) : l ⊆ insertNew x l := by
  by_cases h : x ∈ l
  · simp [insertNew, h]
  · simp only [insertNew, h, if_false]
    exact List.subset_append_left l [x]

lemma mem_insertNew_self (x : String) (l : List String) : x ∈ insertNew x l := by
  by_cases h : x ∈ l <;> simp [insertNew, h]

lemma insertNew_of_mem {x : String} {l : List String} (h : x ∈ l) :
    insertNew x l = l := by
  simp [insertNew, h]

lemma foldl_insertNew_subset (todo : List String) (l : List String) :
    l ⊆ todo.foldl (fun d q => insertNew q d) l := by
  induction todo generalizing l with
  | nil => exact fun a ha => ha
  | cons t ts ih =>
    simp only [List.foldl_cons]
    exact fun a ha => ih (insertNew t l) (insertNew_subset t l ha)

lemma foldl_insertNew_mem (todo : List String) (l : List String) :
    ∀ q ∈ todo, q ∈ todo.foldl (fun d q => insertNew q d) l := by
  induction todo generalizing l with
  | nil => intro q hq; simp at hq
  | cons t ts ih =>
    intro q hq
    simp only [List.foldl_cons]
    rcases List.mem_cons.mp hq with h | h
    · subst h
      exact foldl_insertNew_subset ts (insertNew q l) (mem_insertNew_self q l)
    · exact ih (insertNew t l) q h

lemma foldl_insertNew_of_mem (todo : List String) :
    ∀ l : List String, (∀ q ∈ todo, q ∈ l) →
      todo.foldl (fun d q => insertNew q d) l = l := by
  induction todo with
  | nil => intro l _; rfl
  | cons t ts ih =>
    intro l h
    simp only [List.foldl_cons]
    rw [insertNew_of_mem (h t (List.mem_cons_self t ts))]
    exact ih l (fun q hq => h q (List.mem_cons_of_mem t hq))

lemma fsle_refl (st : FsState) : FsLe st st :=
  ⟨fun _ ha => ha, fun _ ha => ha⟩

lemma fsle_trans {a b c : FsState} (h1 : FsLe a b) (h2 : FsLe b c) : FsLe a c :=
  ⟨fun _ hx => h2.1 (h1.1 hx), fun _ hx => h2.2 (h1.2 hx)⟩

lemma fsle_paths {a b : FsState} (h : FsLe a b) : a.paths ⊆ b.paths := by
  intro p hp
  rcases List.mem_append.mp hp with h1 | h1
  · exact List.mem_append.mpr (Or.inl (h.1 h1))
  · exact List.mem_append.mpr (Or.inr (h.2 h1))

lemma mkdirs_le (st : FsState) (p : String) : FsLe st (mkdirs st p) :=
  ⟨foldl_insertNew_subset (ancestors p) st.dirs, fun _ ha => ha⟩

lemma symlink_le (st : FsState) (src lnk : String) : FsLe st (symlink_try st src lnk) := by
  by_cases h : lnk ∈ st.paths
  · simp only [symlink_try, h, if_true]
    exact fsle_refl st
  · simp only [symlink_try, h, if_false]
    refine ⟨fun _ ha => ha, ?_⟩
    rw [List.map_append]
    exact List.subset_append_left _ _

lemma symlink_done (st : FsState) (src lnk : String) :
    lnk ∈ (symlink_try st src lnk).paths := by
  by_cases h : lnk ∈ st.paths
  · unfold symlink_try
    rw [if_pos h]
    exact h
  · unfold symlink_try
    rw [if_neg h]
    show lnk ∈ st.dirs ++ (st.links ++ [(lnk, src)]).map Prod.fst
    rw [List.map_append]
    refine List.mem_append.mpr (Or.inr ?_)
    refine List.mem_append.mpr (Or.inr ?_)
    simp

lemma symlink_of_done {st : FsState} {src lnk : String} (h : lnk ∈ st.paths) :
    symlink_try st src lnk = st := by
  simp [symlink_try, h]

lemma opDone_mono {a b : FsState} {op : FsOp} (hle : FsLe a b) (h : opDone a op) :
    opDone b op := by
  cases op with
  | mkdir p => exact fun q hq => hle.1 (h q hq)
  | mklink src lnk => exact fsle_paths hle h

lemma applyOp_le (st : FsState) (op : FsOp) : FsLe st (applyOp st op) := by
  cases op with
  | mkdir p => exact mkdirs_le st p
  | mklink src lnk => exact symlink_le st src lnk

lemma applyOp_done (st : FsState) (op : FsOp) : opDone (applyOp st op) op := by
  cases op with
  | mkdir p => exact fun q hq => foldl_insertNew_mem (ancestors p) st.dirs q hq
  | mklink src lnk => exact symlink_done st src lnk

lemma applyOp_of_done {st : FsState} {op : FsOp} (h : opDone st op) :
    applyOp st op = st := by
  cases op with
  | mkdir p =>
    show mkdirs st p = st
    unfold mkdirs
    rw [foldl_insertNew_of_mem (ancestors p) st.dirs h]
  | mklink src lnk => exact symlink_of_done h

lemma applyOps_le (st : FsState) (ops : List FsOp) : FsLe st (applyOps st ops) := by
  induction ops generalizing st with
  | nil => exact fsle_refl st
  | cons op rest ih => exact fsle_trans (applyOp_le st op) (ih (applyOp st op))

lemma applyOps_done (st : FsState) (ops : List FsOp) :
    ∀ op ∈ ops, opDone (applyOps st ops) op := by
  induction ops generalizing st with
  | nil => intro op h; simp at h
  | cons o rest ih =>
    intro op h
    rcases List.mem_cons.mp h with h | h
    · subst h
      exact opDone_mono (applyOps_le (applyOp st op) rest) (applyOp_done st op)
    · exact ih (applyOp st o) op h

lemma applyOps_of_done (ops : List FsOp) :
    ∀ st : FsState, (∀ op ∈ ops, opDone st op) → applyOps st ops = st := by
  induction ops with
  | nil => intro st _; rfl
  | cons o rest ih =>
    intro st h
    show applyOps (applyOp st o) rest = st
    rw [applyOp_of_done (h o (List.mem_cons_self o rest))]
    exact ih st (fun op hop => h op (List.mem_cons_of_mem o hop))

lemma applyOps_idem (st : FsState) (ops : List FsOp) :
    applyOps (applyOps st ops) ops = applyOps st ops :=
  applyOps_of_done ops (applyOps st ops) (applyOps_done st ops)

lemma applyOps_append (st : FsState) (a b : List FsOp) :
    applyOps st (a ++ b) = applyOps (applyOps st a) b := by
  simp [applyOps, List.foldl_append]

lemma foldl_eq_applyOps {α : Type} (g : α → List FsOp) (step : FsState → α → FsState)
    (hstep : ∀ (st : FsState) (a : α), step st a = applyOps st (g a)) (l : List α) :
    ∀ st : FsState, l.foldl step st = applyOps st (l.flatMap g) := by
  induction l with
  | nil => intro st; rfl
  | cons x xs ih =>
    intro st
    show xs.foldl step (step st x) = applyOps st ((x :: xs).flatMap g)
    rw [hstep st x, ih (applyOps st (g x)), List.flatMap_cons, applyOps_append]

lemma fs_item_step_eq (s : Settings) (env : Env) (od : String) (st : FsState)
    (it : Category ⊕ Media) :
    fs_item_step s env od st it = applyOps st (fs_item_ops s env od it) := by
  cases it with
  | inl sub => rfl
  | inr m =>
    by_cases h : m.exists_in (pj2 s.work_dir s.sub_dir) env
    · simp [fs_item_step, fs_item_ops, h, applyOps, applyOp]
    · simp [fs_item_step, fs_item_ops, h, applyOps]

lemma fs_cat_step_eq (s : Settings) (env : Env) (st : FsState) (c : Category) :
    fs_cat_step s env st c = applyOps st (fs_cat_ops s env c) := by
  simp only [fs_cat_step, fs_cat_ops]
  rw [applyOps_append, applyOps_append]
  rw [foldl_eq_applyOps (fs_item_ops s env (pj3 s.work_dir s.sub_dir c.key))
    (fs_item_step s env (pj3 s.work_dir s.sub_dir c.key))
    (fun st a => fs_item_step_eq s env (pj3 s.work_dir s.sub_dir c.key) st a)
    c.contents]
  congr 1
  cases hh : c.home <;> rfl

lemma output_filesystem_eq (s : Settings) (env : Env) (data : List Category)
    (st : FsState) :
    output_filesystem s env data st = applyOps st (fs_ops s env data) := by
  unfold output_filesystem fs_ops
  exact foldl_eq_applyOps (fs_cat_ops s env) (fs_cat_step s env)
    (fun st c => fs_cat_step_eq s env st c) data st

/-- C9: running the filesystem emitter a second time on the same input and
the state left by the first run changes nothing: every directory creation
tolerates a pre-existing directory and every symlink creation tolerates a
pre-existing entry at the link path (left untouched, not replaced), so the
second run creates zero new links or directories and the tree is
identical. -/
theorem output_filesystem_idempotent (s : Settings) (env : Env)
    (data : List Category) (st : FsState) :
    output_filesystem s env data (output_filesystem s env data st) =
      output_filesystem s env data st := by
  simp only [output_filesystem_eq]
  exact applyOps_idem st (fs_ops s env data)



